import Mathlib

/-!
Verification development for the timetable optimizer
(src/scrapping_scripts/optimal.py).

The Python module is shallowly embedded below.  Dictionaries of the
input catalog are modelled as structures and insertion-ordered
association lists, Python floats as exact rationals, and the float
value negative infinity (returned for an empty activity set) as the
bottom element of `WithBot Rat`.  Strings (day names, HH:MM times,
numeric duration fields) are kept as strings and parsed exactly the
way the Python code parses them; following the contract of the module
(the catalog is validated upstream), the integer parse of a malformed
string defaults to 0 where Python would raise.
-/

/-- One concrete activity offering.  Only the dictionary fields read by
the optimizer are modelled: subject code, activity group code, activity
code, day of week, start time (an HH:MM string) and duration (a string
holding an integer number of minutes, parsed with int() by the code). -/
structure Activity where
  subject_code : String
  activity_group_code : String
  activity_code : String
  day_of_week : String
  start_time : String
  duration : String
deriving DecidableEq, Repr

/-- One subject of the input catalog: its subject code and the list of
its activity dictionaries in iteration (insertion) order. -/
structure Subject where
  subject_code : String
  activities : List Activity
deriving DecidableEq, Repr

/-- The timeRestrictions entry of the optimization options: start and
end hours of the preferred daily band. -/
structure TimeRestrictions where
  start : Int
  «end» : Int
deriving DecidableEq, Repr

/-- The optimization options read by the scorer: the avoid-day list and
the time restrictions.  The boolean preference toggles of the input are
never consulted by the code and are omitted. -/
structure Optimization where
  timeRestrictions : TimeRestrictions
  avoidDays : List String
deriving DecidableEq, Repr

namespace TimetableOptimizer

/-- Decimal digit accumulation for the embedding of Python int():
none on an empty or non-digit character list. -/
def digits_to_nat? (l : List Char) : Option Nat :=
  l.foldl
    (fun acc c =>
      acc.bind (fun n => if c.isDigit then some (n * 10 + (c.toNat - 48)) else none))
    (if l.isEmpty then none else some 0)

/-- Embedding of Python int(s) on canonical integer strings: an
optional leading minus sign followed by decimal digits. -/
def py_int? (s : String) : Option Int :=
  match s.data with
  | '-' :: rest => (digits_to_nat? rest).map (fun n => -(n : Int))
  | l => (digits_to_nat? l).map (fun n => (n : Int))

/-- Embedding of Python int(s) under the validated-catalog contract:
a malformed string (where Python would raise) defaults to 0. -/
def str_to_int (s : String) : Int :=
  (py_int? s).getD 0

/-- Split a character list at every occurrence of the separator
character, mirroring the Python str.split method with one separator:
the result always has one more part than there are separators. -/
def split_char (c : Char) : List Char → List (List Char)
  | [] => [[]]
  | x :: xs =>
    match split_char c xs with
    | [] => [[]]
    | first :: rest =>
        if x = c then [] :: first :: rest else (x :: first) :: rest

/-- Embedding of the lowercased 3-character prefix day.lower()[:3]
used by score_avoid_days.  Day names are ASCII, where Char.toLower
agrees with the Python str.lower method. -/
def lower3 (s : String) : String :=
  ⟨(s.data.map Char.toLower).take 3⟩

/-- Convert a time string (HH:MM) to minutes since midnight,
mirroring time_to_minutes of the source. -/
def time_to_minutes (time_str : String) : Int :=
  match (split_char ':' time_str.data).map (fun part => str_to_int ⟨part⟩) with
  | [hours, minutes] => hours * 60 + minutes
  | _ => 0

/-- Nested insertion-ordered map from group code to activity list. -/
abbrev GroupMap := List (String × List Activity)

/-- Nested insertion-ordered map from subject code to its group map. -/
abbrev SubjectMap := List (String × GroupMap)

/-- Append an activity to the bucket of a group key, creating the key
at the end on first use: defaultdict(list) insertion-order semantics. -/
def group_append (m : GroupMap) (k : String) (a : Activity) : GroupMap :=
  match m with
  | [] => [(k, [a])]
  | (k₀, v) :: rest =>
      if k₀ = k then (k₀, v ++ [a]) :: rest else (k₀, v) :: group_append rest k a

/-- Append an activity to the bucket of a (subject key, group key)
pair, with defaultdict insertion-order semantics on both levels. -/
def subject_append (m : SubjectMap) (sk gk : String) (a : Activity) : SubjectMap :=
  match m with
  | [] => [(sk, group_append [] gk a)]
  | (k₀, v) :: rest =>
      if k₀ = sk then (k₀, group_append v gk a) :: rest
      else (k₀, v) :: subject_append rest sk gk a

/-- Embedding of get_subject_activities: walk the subjects in catalog
order and their activities in iteration order, filing each activity
under the subject code of its subject and its own activity group code. -/
def get_subject_activities (subjects : List Subject) : SubjectMap :=
  subjects.foldl
    (fun m subject =>
      subject.activities.foldl
        (fun m activity =>
          subject_append m subject.subject_code activity.activity_group_code activity)
        m)
    []

/-- Embedding of score_avoid_days: 0.0 when the lowercased 3-character
prefix of the day of week of the activity occurs among the lowercased
3-character prefixes of the configured avoid days, else 1.0. -/
def score_avoid_days (opt : Optimization) (activity : Activity) : ℚ :=
  let avoid_days := opt.avoidDays.map lower3
  let activity_day := lower3 activity.day_of_week
  if activity_day ∈ avoid_days then 0 else 1

/-- The total deviation (in minutes) of an activity from the allowed
time band, exactly as accumulated by score_time_restrictions. -/
def total_deviation (opt : Optimization) (activity : Activity) : Int :=
  let start_time := time_to_minutes activity.start_time
  let duration := str_to_int activity.duration
  let end_time := start_time + duration
  let allowed_start := opt.timeRestrictions.start * 60
  let allowed_end := opt.timeRestrictions.«end» * 60
  let start_deviation :=
    max 0 (allowed_start - start_time) + max 0 (start_time - allowed_end)
  let end_deviation :=
    max 0 (allowed_start - end_time) + max 0 (end_time - allowed_end)
  start_deviation + end_deviation

/-- Embedding of score_time_restrictions: one minus the total deviation
divided by the maximum possible deviation constant of 24*60 minutes. -/
def score_time_restrictions (opt : Optimization) (activity : Activity) : ℚ :=
  let max_possible_deviation : ℚ := 24 * 60
  1 - ((total_deviation opt activity : ℚ) / max_possible_deviation)

/-- Embedding of check_clash: activities on different days never
clash; on the same day they clash unless one ends no later than the
other starts. -/
def check_clash (activity1 activity2 : Activity) : Bool :=
  if activity1.day_of_week ≠ activity2.day_of_week then
    false
  else
    let start1 := time_to_minutes activity1.start_time
    let end1 := start1 + str_to_int activity1.duration
    let start2 := time_to_minutes activity2.start_time
    let end2 := start2 + str_to_int activity2.duration
    ¬(end1 ≤ start2 ∨ end2 ≤ start1)

/-- The number of clashing index pairs i < j of the list, as counted by
the double loop of score_activity_combination. -/
def clash_count : List Activity → Nat
  | [] => 0
  | a :: rest => rest.countP (fun b => check_clash a b) + clash_count rest

/-- The clash component of score_activity_combination: one minus the
ratio of clashing pairs over possible pairs when there is at least one
possible pair, else 1.0. -/
def clash_score (activities : List Activity) : ℚ :=
  let total_possible_clashes : ℚ :=
    ((activities.length : ℚ) * ((activities.length : ℚ) - 1)) / 2
  if 0 < total_possible_clashes then
    1 - ((clash_count activities : ℚ) / total_possible_clashes)
  else
    1

/-- Embedding of score_activity_combination: negative infinity (the
bottom element) for an empty list, else the fixed weighted sum of the
mean avoid-day score, the mean time-restriction score and the clash
score, with weights 0.5, 0.3 and 0.2. -/
def score_activity_combination (opt : Optimization) (activities : List Activity) :
    WithBot ℚ :=
  if activities.isEmpty then
    ⊥
  else
    let avoid_days_score :=
      (activities.map (score_avoid_days opt)).sum / (activities.length : ℚ)
    let time_score :=
      (activities.map (score_time_restrictions opt)).sum / (activities.length : ℚ)
    ((0.5 * avoid_days_score + 0.3 * time_score + 0.2 * clash_score activities : ℚ) :
      WithBot ℚ)

/-- The state mutated by the nested search of optimize_timetable: the
best combination found so far and its score. -/
structure OptState where
  best_combination : List Activity
  best_score : WithBot ℚ
deriving DecidableEq

mutual

/-- Embedding of try_subject_combinations.  The remaining suffix of the
subject map stands for the index into the subject code list; the state
threads the nonlocal best pair through the recursion.  At the base case
the current complete selection is scored and replaces the best exactly
when its score is strictly greater. -/
def try_subject_combinations (opt : Optimization) (subs : SubjectMap)
    (current_selection : List Activity) (st : OptState) : OptState :=
  match subs with
  | [] =>
      let score := score_activity_combination opt current_selection
      if st.best_score < score then ⟨current_selection, score⟩ else st
  | (_, activity_groups) :: rest =>
      try_group_combinations opt rest current_selection activity_groups [] st
termination_by (subs.length, 0, 0)

/-- Embedding of try_group_combinations: with no group left, the
selection of the current subject is appended to the accumulated
selection and the next subject is processed; otherwise every activity
of the first remaining group is tried in order. -/
def try_group_combinations (opt : Optimization) (rest : SubjectMap)
    (current_selection : List Activity) (groups : GroupMap)
    (subject_selection : List Activity) (st : OptState) : OptState :=
  match groups with
  | [] => try_subject_combinations opt rest (current_selection ++ subject_selection) st
  | (_, activities) :: grest =>
      try_activities opt rest current_selection grest activities subject_selection st
termination_by (rest.length, groups.length + 1, 0)

/-- The loop over the activities of one group inside
try_group_combinations: each activity is appended to the subject
selection, the remaining groups are processed, and the backtracking pop
is reflected by passing the unextended selection to the next iteration. -/
def try_activities (opt : Optimization) (rest : SubjectMap)
    (current_selection : List Activity) (grest : GroupMap)
    (activities : List Activity) (subject_selection : List Activity)
    (st : OptState) : OptState :=
  match activities with
  | [] => st
  | a :: more =>
      let st₁ :=
        try_group_combinations opt rest current_selection grest
          (subject_selection ++ [a]) st
      try_activities opt rest current_selection grest more subject_selection st₁
termination_by (rest.length, grest.length + 1, activities.length)

end

/-- Embedding of optimize_timetable: build the nested subject map, run
the search from an empty selection with best score negative infinity,
and return the best combination found. -/
def optimize_timetable (opt : Optimization) (subjects : List Subject) :
    List Activity :=
  let subject_activities := get_subject_activities subjects
  (try_subject_combinations opt subject_activities [] ⟨[], ⊥⟩).best_combination

/-- The line rendered for one activity by format_output. -/
def format_activity (activity : Activity) : String :=
  activity.subject_code ++ " | " ++ activity.activity_group_code ++ " | " ++
    "Activity " ++ activity.activity_code ++ " | " ++
    activity.day_of_week ++ " " ++ activity.start_time ++
    " (" ++ activity.duration ++ " mins)"

/-- Embedding of format_output: render every selected activity and
sort the lines lexicographically. -/
def format_output (selected_activities : List Activity) : List String :=
  (selected_activities.map format_activity).mergeSort (fun s₁ s₂ => s₁ ≤ s₂)

end TimetableOptimizer

/-- The base-case update performed by try_subject_combinations once
all subjects are processed: score the complete selection and replace
the best exactly on a strictly greater score. -/
def opt_step (opt : Optimization) (st : TimetableOptimizer.OptState)
    (sel : List Activity) : TimetableOptimizer.OptState :=
  let score := TimetableOptimizer.score_activity_combination opt sel
  if st.best_score < score then ⟨sel, score⟩ else st

/-- Enumeration (in source order) of the complete selections that
try_group_combinations produces for one list of groups: one candidate
activity from each group, the first group varying slowest.  This is the
denotation of the inner backtracking recursion, following the wording
of the specification on enumeration order. -/
def group_selections : TimetableOptimizer.GroupMap → List (List Activity)
  | [] => [[]]
  | (_, activities) :: grest =>
      activities.flatMap (fun a => (group_selections grest).map (fun s => a :: s))

/-- Enumeration (in source order) of the complete schedules that the
search scores: the per-subject selections concatenated, subjects in map
order, earlier subjects varying slowest.  This is the denotation of the
outer backtracking recursion, following the wording of the
specification on enumeration order. -/
def subject_selections : TimetableOptimizer.SubjectMap → List (List Activity)
  | [] => [[]]
  | (_, groups) :: rest =>
      (group_selections groups).flatMap
        (fun s => (subject_selections rest).map (fun t => s ++ t))

open TimetableOptimizer

universe u v w

theorem foldl_flatMap {α : Type u} {β : Type v} {γ : Type w}
    (f : β → α → β) (g : γ → List α) (l : List γ) (init : β) :
    (l.flatMap g).foldl f init = l.foldl (fun acc x => (g x).foldl f acc) init := by
  induction l generalizing init with
  | nil => rfl
  | cons x xs ih => simp only [List.flatMap_cons, List.foldl_append, List.foldl_cons, ih]

theorem try_activities_eq (opt : Optimization) (rest : SubjectMap)
    (cur : List Activity) (grest : GroupMap) (acts : List Activity)
    (subjSel : List Activity) (st : OptState) :
    try_activities opt rest cur grest acts subjSel st =
      acts.foldl
        (fun st a => try_group_combinations opt rest cur grest (subjSel ++ [a]) st)
        st := by
  induction acts generalizing st with
  | nil => simp [try_activities]
  | cons a more ih => rw [try_activities]; simp only [List.foldl_cons, ih]

theorem try_group_combinations_eq (opt : Optimization) (rest : SubjectMap)
    (cur : List Activity) (groups : GroupMap) :
    ∀ (subjSel : List Activity) (st : OptState),
    try_group_combinations opt rest cur groups subjSel st =
      ((group_selections groups).map (fun s => subjSel ++ s)).foldl
        (fun st s => try_subject_combinations opt rest (cur ++ s) st) st := by
  induction groups with
  | nil =>
      intro subjSel st
      simp [try_group_combinations, group_selections]
  | cons g grest ih =>
      intro subjSel st
      obtain ⟨gc, acts⟩ := g
      rw [try_group_combinations, try_activities_eq,
        List.foldl_ext _ _ st (fun st a _ => ih (subjSel ++ [a]) st)]
      simp only [group_selections, List.map_flatMap, foldl_flatMap, List.map_map]
      simp [Function.comp_def]

theorem try_subject_combinations_eq (opt : Optimization) (subs : SubjectMap) :
    ∀ (cur : List Activity) (st : OptState),
    try_subject_combinations opt subs cur st =
      ((subject_selections subs).map (fun t => cur ++ t)).foldl (opt_step opt) st := by
  induction subs with
  | nil =>
      intro cur st
      simp [try_subject_combinations, subject_selections, opt_step]
  | cons p rest ih =>
      intro cur st
      obtain ⟨sk, groups⟩ := p
      rw [try_subject_combinations, try_group_combinations_eq,
        List.foldl_ext _ _ st (fun st s _ => ih (cur ++ s) st)]
      simp only [subject_selections, List.map_flatMap, foldl_flatMap, List.map_map]
      simp [Function.comp_def]

theorem optimize_timetable_eq (opt : Optimization) (subjects : List Subject) :
    optimize_timetable opt subjects =
      ((subject_selections (get_subject_activities subjects)).foldl (opt_step opt)
        ⟨[], ⊥⟩).best_combination := by
  show (try_subject_combinations opt (get_subject_activities subjects) []
      ⟨[], ⊥⟩).best_combination = _
  rw [try_subject_combinations_eq]
  simp

theorem opt_step_best_score (opt : Optimization) (st : OptState) (sel : List Activity) :
    (opt_step opt st sel).best_score =
      max st.best_score (score_activity_combination opt sel) := by
  unfold opt_step
  rcases lt_or_ge st.best_score (score_activity_combination opt sel) with h | h
  · simp [h, max_eq_right h.le]
  · simp [not_lt.mpr h, max_eq_left h]

theorem opt_step_of_le (opt : Optimization) (st : OptState) (sel : List Activity)
    (h : score_activity_combination opt sel ≤ st.best_score) :
    opt_step opt st sel = st := by
  unfold opt_step
  simp [not_lt.mpr h]

theorem foldl_opt_step_mono (opt : Optimization) (l : List (List Activity)) :
    ∀ st : OptState, st.best_score ≤ (l.foldl (opt_step opt) st).best_score := by
  induction l with
  | nil => intro st; simp
  | cons c t ih =>
      intro st
      refine le_trans ?_ (ih (opt_step opt st c))
      rw [opt_step_best_score]
      exact le_max_left _ _

theorem le_foldl_opt_step (opt : Optimization) (l : List (List Activity)) :
    ∀ st : OptState, ∀ c ∈ l,
      score_activity_combination opt c ≤ (l.foldl (opt_step opt) st).best_score := by
  induction l with
  | nil => intro st c hc; simp at hc
  | cons x t ih =>
      intro st c hc
      rcases List.mem_cons.mp hc with rfl | hct
      · refine le_trans ?_ (foldl_opt_step_mono opt t (opt_step opt st c))
        rw [opt_step_best_score]
        exact le_max_right _ _
      · exact ih (opt_step opt st x) c hct

theorem foldl_opt_step_of_le (opt : Optimization) (l : List (List Activity)) :
    ∀ st : OptState,
      (∀ c ∈ l, score_activity_combination opt c ≤ st.best_score) →
      l.foldl (opt_step opt) st = st := by
  induction l with
  | nil => intro st _; rfl
  | cons x t ih =>
      intro st h
      have hx : opt_step opt st x = st :=
        opt_step_of_le opt st x (h x (List.mem_cons_self x t))
      rw [List.foldl_cons, hx]
      exact ih st (fun c hc => h c (List.mem_cons_of_mem x hc))

theorem foldl_opt_step_argmax (opt : Optimization) (l : List (List Activity)) :
    ∀ st : OptState,
      (∃ c ∈ l, st.best_score < score_activity_combination opt c) →
      (l.foldl (opt_step opt) st).best_score =
          score_activity_combination opt
            ((l.foldl (opt_step opt) st).best_combination) ∧
      l.find?
          (fun c => decide (score_activity_combination opt c =
            (l.foldl (opt_step opt) st).best_score)) =
        some ((l.foldl (opt_step opt) st).best_combination) := by
  induction l with
  | nil => intro st h; simp at h
  | cons x t ih =>
      intro st h
      by_cases h1 : st.best_score < score_activity_combination opt x
      · have hst : opt_step opt st x = ⟨x, score_activity_combination opt x⟩ := by
          unfold opt_step
          simp [h1]
        by_cases h2 : ∃ d ∈ t,
            score_activity_combination opt x < score_activity_combination opt d
        · obtain ⟨d, hd, hxd⟩ := h2
          have hex : ∃ d ∈ t,
              (opt_step opt st x).best_score < score_activity_combination opt d := by
            exact ⟨d, hd, by rw [hst]; exact hxd⟩
          obtain ⟨ihs, ihf⟩ := ih (opt_step opt st x) hex
          have hlt : score_activity_combination opt x <
              (t.foldl (opt_step opt) (opt_step opt st x)).best_score :=
            lt_of_lt_of_le hxd (le_foldl_opt_step opt t (opt_step opt st x) d hd)
          constructor
          · simpa using ihs
          · rw [List.foldl_cons, List.find?_cons_of_neg]
            · simpa using ihf
            · simp only [decide_eq_true_eq]
              exact fun hEq => absurd hEq (ne_of_lt hlt)
        · push_neg at h2
          have hall : ∀ c ∈ t, score_activity_combination opt c ≤
              (opt_step opt st x).best_score := by
            intro c hc
            rw [hst]
            exact h2 c hc
          have hfix : t.foldl (opt_step opt) (opt_step opt st x) = opt_step opt st x :=
            foldl_opt_step_of_le opt t (opt_step opt st x) hall
          constructor
          · rw [List.foldl_cons, hfix, hst]
          · rw [List.foldl_cons, hfix, hst, List.find?_cons_of_pos]
            simp
      · have hst : opt_step opt st x = st := by
          unfold opt_step
          simp [h1]
        obtain ⟨c, hc, hlt⟩ := h
        have hct : c ∈ t := by
          rcases List.mem_cons.mp hc with rfl | hct
          · exact absurd hlt h1
          · exact hct
        obtain ⟨ihs, ihf⟩ := ih st ⟨c, hct, hlt⟩
        have hxle : score_activity_combination opt x ≤ st.best_score := not_lt.mp h1
        have hxlt : score_activity_combination opt x <
            (t.foldl (opt_step opt) st).best_score :=
          lt_of_le_of_lt hxle
            (lt_of_lt_of_le hlt (le_foldl_opt_step opt t st c hct))
        constructor
        · rw [List.foldl_cons, hst]
          exact ihs
        · rw [List.foldl_cons, hst, List.find?_cons_of_neg]
          · exact ihf
          · simp only [decide_eq_true_eq]
            exact fun hEq => absurd hEq (ne_of_lt hxlt)

theorem length_group_selections (groups : GroupMap) :
    (group_selections groups).length = (groups.map (fun q => q.2.length)).prod := by
  induction groups with
  | nil => rfl
  | cons g grest ih =>
      obtain ⟨gc, acts⟩ := g
      simp [group_selections, List.length_flatMap, Function.comp_def,
        List.map_const, ih, List.sum_replicate, mul_comm]

theorem length_subject_selections (sa : SubjectMap) :
    (subject_selections sa).length =
      (sa.map (fun p => (p.2.map (fun q => q.2.length)).prod)).prod := by
  induction sa with
  | nil => rfl
  | cons p rest ih =>
      obtain ⟨sk, groups⟩ := p
      simp [subject_selections, List.length_flatMap, Function.comp_def,
        List.map_const, ih, List.sum_replicate, length_group_selections, mul_comm]

theorem length_of_mem_group_selections {groups : GroupMap} {sel : List Activity}
    (h : sel ∈ group_selections groups) : sel.length = groups.length := by
  induction groups generalizing sel with
  | nil =>
      simp only [group_selections, List.mem_singleton] at h
      simp [h]
  | cons g grest ih =>
      obtain ⟨gc, acts⟩ := g
      simp only [group_selections, List.mem_flatMap, List.mem_map] at h
      obtain ⟨a, _, s, hs, rfl⟩ := h
      simp [ih hs]

theorem length_of_mem_subject_selections {sa : SubjectMap} {sel : List Activity}
    (h : sel ∈ subject_selections sa) :
    sel.length = (sa.map (fun p => p.2.length)).sum := by
  induction sa generalizing sel with
  | nil =>
      simp only [subject_selections, List.mem_singleton] at h
      simp [h]
  | cons p rest ih =>
      obtain ⟨sk, groups⟩ := p
      simp only [subject_selections, List.mem_flatMap, List.mem_map] at h
      obtain ⟨s, hs, t, ht, rfl⟩ := h
      simp [List.length_append, length_of_mem_group_selections hs, ih ht]

theorem mem_of_mem_group_selections {groups : GroupMap} {sel : List Activity}
    {b : Activity} (hsel : sel ∈ group_selections groups) (hb : b ∈ sel) :
    ∃ q ∈ groups, b ∈ q.2 := by
  induction groups generalizing sel with
  | nil =>
      simp only [group_selections, List.mem_singleton] at hsel
      subst hsel
      simp at hb
  | cons g grest ih =>
      obtain ⟨gc, acts⟩ := g
      simp only [group_selections, List.mem_flatMap, List.mem_map] at hsel
      obtain ⟨a, ha, s, hs, rfl⟩ := hsel
      rcases List.mem_cons.mp hb with rfl | hbs
      · exact ⟨(gc, acts), List.mem_cons_self _ _, ha⟩
      · obtain ⟨q, hq, hbq⟩ := ih hs hbs
        exact ⟨q, List.mem_cons_of_mem _ hq, hbq⟩

theorem mem_of_mem_subject_selections {sa : SubjectMap} {sel : List Activity}
    {b : Activity} (hsel : sel ∈ subject_selections sa) (hb : b ∈ sel) :
    ∃ p ∈ sa, ∃ q ∈ p.2, b ∈ q.2 := by
  induction sa generalizing sel with
  | nil =>
      simp only [subject_selections, List.mem_singleton] at hsel
      subst hsel
      simp at hb
  | cons p rest ih =>
      obtain ⟨sk, groups⟩ := p
      simp only [subject_selections, List.mem_flatMap, List.mem_map] at hsel
      obtain ⟨s, hs, t, ht, rfl⟩ := hsel
      rcases List.mem_append.mp hb with hbs | hbt
      · obtain ⟨q, hq, hbq⟩ := mem_of_mem_group_selections hs hbs
        exact ⟨(sk, groups), List.mem_cons_self _ _, q, hq, hbq⟩
      · obtain ⟨p, hp, q, hq, hbq⟩ := ih ht hbt
        exact ⟨p, List.mem_cons_of_mem _ hp, q, hq, hbq⟩

/-- Structural well-formedness of a group map as built by group_append:
distinct keys, non-empty buckets, and every activity filed under the
key equal to its own activity group code. -/
def GroupMapWF (groups : TimetableOptimizer.GroupMap) : Prop :=
  (groups.map Prod.fst).Nodup ∧
    ∀ q ∈ groups, q.2 ≠ [] ∧ ∀ a ∈ q.2, a.activity_group_code = q.1

/-- Structural well-formedness of the subject map built by
get_subject_activities: distinct subject keys, non-empty group maps,
and well-formed group maps. -/
def SubjectMapWF (sa : TimetableOptimizer.SubjectMap) : Prop :=
  (sa.map Prod.fst).Nodup ∧ ∀ p ∈ sa, p.2 ≠ [] ∧ GroupMapWF p.2

/-- Every activity of the subject map is filed under the subject code
of the catalog subject it came from; when the catalog is well formed
this key is also the own subject code of the activity. -/
def SubjectMapOwn (sa : TimetableOptimizer.SubjectMap) : Prop :=
  ∀ p ∈ sa, ∀ q ∈ p.2, ∀ a ∈ q.2, a.subject_code = p.1

theorem mem_keys_group_append (m : GroupMap) (k : String) (a : Activity) (x : String) :
    x ∈ (group_append m k a).map Prod.fst ↔ x ∈ m.map Prod.fst ∨ x = k := by
  induction m with
  | nil => simp [group_append]
  | cons q rest ih =>
      obtain ⟨k₀, v⟩ := q
      by_cases hk : k₀ = k
      · subst hk
        simp [group_append]
        tauto
      · simp [group_append, hk, ih]
        tauto


theorem group_append_cons_pos (k : String) (v : List Activity)
    (rest : GroupMap) (a : Activity) :
    group_append ((k, v) :: rest) k a = (k, v ++ [a]) :: rest := by
  simp [group_append]

theorem group_append_cons_neg {k₀ k : String} (v : List Activity)
    (rest : GroupMap) (a : Activity) (h : k₀ ≠ k) :
    group_append ((k₀, v) :: rest) k a = (k₀, v) :: group_append rest k a := by
  simp [group_append, h]

theorem mem_group_append (m : GroupMap) (k : String) (a : Activity) :
    ∀ q ∈ group_append m k a, ∀ x ∈ q.2,
      (∃ q₀ ∈ m, q.1 = q₀.1 ∧ x ∈ q₀.2) ∨ (x = a ∧ q.1 = k) := by
  induction m with
  | nil =>
      intro q hq x hx
      simp only [group_append, List.mem_singleton] at hq
      subst hq
      simp only [List.mem_singleton] at hx
      exact Or.inr ⟨hx, rfl⟩
  | cons q₁ rest ih =>
      intro q hq x hx
      obtain ⟨k₀, v⟩ := q₁
      by_cases hk : k₀ = k
      · subst hk
        rw [group_append_cons_pos] at hq
        rcases List.mem_cons.mp hq with rfl | hq
        · rcases List.mem_append.mp hx with hxv | hxa
          · exact Or.inl ⟨(k₀, v), List.mem_cons_self _ _, rfl, hxv⟩
          · simp only [List.mem_singleton] at hxa
            exact Or.inr ⟨hxa, rfl⟩
        · exact Or.inl ⟨q, List.mem_cons_of_mem _ hq, rfl, hx⟩
      · rw [group_append_cons_neg v rest a hk] at hq
        rcases List.mem_cons.mp hq with rfl | hq
        · exact Or.inl ⟨(k₀, v), List.mem_cons_self _ _, rfl, hx⟩
        · rcases ih q hq x hx with ⟨q₀, hq₀, he, hxq⟩ | hr
          · exact Or.inl ⟨q₀, List.mem_cons_of_mem _ hq₀, he, hxq⟩
          · exact Or.inr hr

theorem nodup_keys_group_append {m : GroupMap} (k : String) (a : Activity)
    (h : (m.map Prod.fst).Nodup) :
    ((group_append m k a).map Prod.fst).Nodup := by
  induction m with
  | nil => simp [group_append]
  | cons q rest ih =>
      obtain ⟨k₀, v⟩ := q
      simp only [List.map_cons, List.nodup_cons] at h
      by_cases hk : k₀ = k
      · subst hk
        rw [group_append_cons_pos]
        simpa using h
      · rw [group_append_cons_neg v rest a hk]
        simp only [List.map_cons, List.nodup_cons]
        refine ⟨?_, ih h.2⟩
        intro hcontra
        rcases (mem_keys_group_append rest k a k₀).mp hcontra with hin | rfl
        · exact h.1 hin
        · exact hk rfl

theorem ne_nil_group_append {m : GroupMap} (k : String) (a : Activity)
    (h : ∀ q ∈ m, q.2 ≠ []) :
    ∀ q ∈ group_append m k a, q.2 ≠ [] := by
  induction m with
  | nil =>
      intro q hq
      simp only [group_append, List.mem_singleton] at hq
      subst hq
      simp
  | cons q₁ rest ih =>
      intro q hq
      obtain ⟨k₀, v⟩ := q₁
      by_cases hk : k₀ = k
      · subst hk
        rw [group_append_cons_pos] at hq
        rcases List.mem_cons.mp hq with rfl | hq
        · simp
        · exact h q (List.mem_cons_of_mem _ hq)
      · rw [group_append_cons_neg v rest a hk] at hq
        rcases List.mem_cons.mp hq with rfl | hq
        · exact h (k₀, v) (List.mem_cons_self _ _)
        · exact ih (fun q' hq' => h q' (List.mem_cons_of_mem _ hq')) q hq

theorem groupMapWF_group_append {m : GroupMap} {a : Activity}
    (h : GroupMapWF m) :
    GroupMapWF (group_append m a.activity_group_code a) := by
  obtain ⟨hnd, hmem⟩ := h
  refine ⟨nodup_keys_group_append _ a hnd, fun q hq => ?_⟩
  refine ⟨ne_nil_group_append _ a (fun q' hq' => (hmem q' hq').1) q hq, fun x hx => ?_⟩
  rcases mem_group_append m a.activity_group_code a q hq x hx with
    ⟨q₀, hq₀, he, hxq⟩ | ⟨rfl, he⟩
  · rw [he]
    exact (hmem q₀ hq₀).2 x hxq
  · rw [he]

theorem group_append_ne_nil (m : GroupMap) (k : String) (a : Activity) :
    group_append m k a ≠ [] := by
  cases m with
  | nil => simp [group_append]
  | cons q rest =>
      obtain ⟨k₀, v⟩ := q
      by_cases hk : k₀ = k
      · subst hk
        rw [group_append_cons_pos]
        simp
      · rw [group_append_cons_neg v rest a hk]
        simp

theorem subject_append_cons_pos (sk gk : String) (v : GroupMap)
    (rest : SubjectMap) (a : Activity) :
    subject_append ((sk, v) :: rest) sk gk a = (sk, group_append v gk a) :: rest := by
  simp [subject_append]

theorem subject_append_cons_neg {k₀ sk : String} (gk : String) (v : GroupMap)
    (rest : SubjectMap) (a : Activity) (h : k₀ ≠ sk) :
    subject_append ((k₀, v) :: rest) sk gk a = (k₀, v) :: subject_append rest sk gk a := by
  simp [subject_append, h]

theorem mem_keys_subject_append (m : SubjectMap) (sk gk : String) (a : Activity)
    (x : String) :
    x ∈ (subject_append m sk gk a).map Prod.fst ↔ x ∈ m.map Prod.fst ∨ x = sk := by
  induction m with
  | nil => simp [subject_append]
  | cons p rest ih =>
      obtain ⟨k₀, v⟩ := p
      by_cases hk : k₀ = sk
      · subst hk
        rw [subject_append_cons_pos]
        simp
        tauto
      · rw [subject_append_cons_neg gk v rest a hk]
        simp [ih]
        tauto

theorem mem_subject_append (m : SubjectMap) (sk gk : String) (a : Activity) :
    ∀ p ∈ subject_append m sk gk a, ∀ q ∈ p.2, ∀ x ∈ q.2,
      (∃ p₀ ∈ m, p.1 = p₀.1 ∧ ∃ q₀ ∈ p₀.2, x ∈ q₀.2) ∨ (x = a ∧ p.1 = sk) := by
  induction m with
  | nil =>
      intro p hp q hq x hx
      simp only [subject_append, List.mem_singleton] at hp
      subst hp
      rcases mem_group_append [] gk a q hq x hx with ⟨q₀, hq₀, _⟩ | ⟨rfl, _⟩
      · simp at hq₀
      · exact Or.inr ⟨rfl, rfl⟩
  | cons p₁ rest ih =>
      intro p hp q hq x hx
      obtain ⟨k₀, v⟩ := p₁
      by_cases hk : k₀ = sk
      · subst hk
        rw [subject_append_cons_pos] at hp
        rcases List.mem_cons.mp hp with rfl | hp
        · rcases mem_group_append v gk a q hq x hx with ⟨q₀, hq₀, _, hxq⟩ | ⟨rfl, _⟩
          · exact Or.inl ⟨(k₀, v), List.mem_cons_self _ _, rfl, q₀, hq₀, hxq⟩
          · exact Or.inr ⟨rfl, rfl⟩
        · exact Or.inl ⟨p, List.mem_cons_of_mem _ hp, rfl, q, hq, hx⟩
      · rw [subject_append_cons_neg gk v rest a hk] at hp
        rcases List.mem_cons.mp hp with rfl | hp
        · exact Or.inl ⟨(k₀, v), List.mem_cons_self _ _, rfl, q, hq, hx⟩
        · rcases ih p hp q hq x hx with ⟨p₀, hp₀, he, hrest⟩ | hr
          · exact Or.inl ⟨p₀, List.mem_cons_of_mem _ hp₀, he, hrest⟩
          · exact Or.inr hr

theorem subjectMapWF_subject_append {m : SubjectMap} {sk : String} {a : Activity}
    (h : SubjectMapWF m) :
    SubjectMapWF (subject_append m sk a.activity_group_code a) := by
  obtain ⟨hnd, hmem⟩ := h
  constructor
  · induction m with
    | nil => simp [subject_append]
    | cons p rest ih =>
        obtain ⟨k₀, v⟩ := p
        simp only [List.map_cons, List.nodup_cons] at hnd
        by_cases hk : k₀ = sk
        · subst hk
          rw [subject_append_cons_pos]
          simp only [List.map_cons, List.nodup_cons]
          exact hnd
        · rw [subject_append_cons_neg _ v rest a hk]
          simp only [List.map_cons, List.nodup_cons]
          refine ⟨?_, ih hnd.2 (fun p hp => hmem p (List.mem_cons_of_mem _ hp))⟩
          intro hcontra
          rcases (mem_keys_subject_append rest sk _ a k₀).mp hcontra with hin | rfl
          · exact hnd.1 hin
          · exact hk rfl
  · intro p hp
    induction m with
    | nil =>
        simp only [subject_append, List.mem_singleton] at hp
        subst hp
        refine ⟨group_append_ne_nil _ _ _, ?_⟩
        exact groupMapWF_group_append ⟨List.nodup_nil, by simp⟩
    | cons p₁ rest ih =>
        obtain ⟨k₀, v⟩ := p₁
        by_cases hk : k₀ = sk
        · subst hk
          rw [subject_append_cons_pos] at hp
          rcases List.mem_cons.mp hp with rfl | hp
          · exact ⟨group_append_ne_nil _ _ _,
              groupMapWF_group_append (hmem (k₀, v) (List.mem_cons_self _ _)).2⟩
          · exact hmem p (List.mem_cons_of_mem _ hp)
        · rw [subject_append_cons_neg _ v rest a hk] at hp
          rcases List.mem_cons.mp hp with rfl | hp
          · exact hmem (k₀, v) (List.mem_cons_self _ _)
          · exact ih (by simpa using (List.nodup_cons.mp (by simpa using hnd)).2)
              (fun p' hp' => hmem p' (List.mem_cons_of_mem _ hp')) hp

theorem subjectMapOwn_subject_append {m : SubjectMap} {sk gk : String} {a : Activity}
    (h : SubjectMapOwn m) (ha : a.subject_code = sk) :
    SubjectMapOwn (subject_append m sk gk a) := by
  intro p hp q hq x hx
  rcases mem_subject_append m sk gk a p hp q hq x hx with
    ⟨p₀, hp₀, he, q₀, hq₀, hxq⟩ | ⟨rfl, he⟩
  · rw [he]
    exact h p₀ hp₀ q₀ hq₀ x hxq
  · rw [he]
    exact ha

theorem subjectMapWF_get_subject_activities (subjects : List Subject) :
    SubjectMapWF (get_subject_activities subjects) := by
  have inner : ∀ (acts : List Activity) (sk : String) (m : SubjectMap),
      SubjectMapWF m →
      SubjectMapWF
        (acts.foldl (fun m a => subject_append m sk a.activity_group_code a) m) := by
    intro acts
    induction acts with
    | nil => intro sk m hm; exact hm
    | cons a more ih =>
        intro sk m hm
        exact ih sk _ (subjectMapWF_subject_append hm)
  have outer : ∀ (l : List Subject) (m : SubjectMap),
      SubjectMapWF m →
      SubjectMapWF
        (l.foldl
          (fun m subject =>
            subject.activities.foldl
              (fun m activity =>
                subject_append m subject.subject_code activity.activity_group_code
                  activity)
              m)
          m) := by
    intro l
    induction l with
    | nil => intro m hm; exact hm
    | cons s more ih =>
        intro m hm
        exact ih _ (inner s.activities s.subject_code m hm)
  exact outer subjects [] ⟨List.nodup_nil, by simp⟩

theorem subjectMapOwn_get_subject_activities (subjects : List Subject)
    (hcat : ∀ s ∈ subjects, ∀ a ∈ s.activities, a.subject_code = s.subject_code) :
    SubjectMapOwn (get_subject_activities subjects) := by
  have inner : ∀ (acts : List Activity) (sk : String) (m : SubjectMap),
      (∀ a ∈ acts, a.subject_code = sk) →
      SubjectMapOwn m →
      SubjectMapOwn
        (acts.foldl (fun m a => subject_append m sk a.activity_group_code a) m) := by
    intro acts
    induction acts with
    | nil => intro sk m _ hm; exact hm
    | cons a more ih =>
        intro sk m hacts hm
        exact ih sk _ (fun a' ha' => hacts a' (List.mem_cons_of_mem _ ha'))
          (subjectMapOwn_subject_append hm (hacts a (List.mem_cons_self _ _)))
  have outer : ∀ (l : List Subject) (m : SubjectMap),
      (∀ s ∈ l, ∀ a ∈ s.activities, a.subject_code = s.subject_code) →
      SubjectMapOwn m →
      SubjectMapOwn
        (l.foldl
          (fun m subject =>
            subject.activities.foldl
              (fun m activity =>
                subject_append m subject.subject_code activity.activity_group_code
                  activity)
              m)
          m) := by
    intro l
    induction l with
    | nil => intro m _ hm; exact hm
    | cons s more ih =>
        intro m hl hm
        exact ih _ (fun s' hs' => hl s' (List.mem_cons_of_mem _ hs'))
          (inner s.activities s.subject_code m (hl s (List.mem_cons_self _ _)) hm)
  exact outer subjects [] hcat (by simp [SubjectMapOwn])

theorem group_selections_codes {groups : GroupMap} (h : GroupMapWF groups) :
    ∀ sel ∈ group_selections groups,
      (∀ b ∈ sel, b.activity_group_code ∈ groups.map Prod.fst) ∧
      sel.Pairwise (fun a b => a.activity_group_code ≠ b.activity_group_code) := by
  induction groups with
  | nil =>
      intro sel hsel
      simp only [group_selections, List.mem_singleton] at hsel
      subst hsel
      simp
  | cons g grest ih =>
      intro sel hsel
      obtain ⟨gc, acts⟩ := g
      obtain ⟨hnd, hmem⟩ := h
      simp only [List.map_cons, List.nodup_cons] at hnd
      have htail : GroupMapWF grest :=
        ⟨hnd.2, fun q hq => hmem q (List.mem_cons_of_mem _ hq)⟩
      simp only [group_selections, List.mem_flatMap, List.mem_map] at hsel
      obtain ⟨a, ha, s, hs, rfl⟩ := hsel
      obtain ⟨hcodes, hpw⟩ := ih htail s hs
      have hagc : a.activity_group_code = gc :=
        (hmem (gc, acts) (List.mem_cons_self _ _)).2 a ha
      constructor
      · intro b hb
        rcases List.mem_cons.mp hb with rfl | hbs
        · simp [hagc]
        · exact List.mem_cons_of_mem _ (hcodes b hbs)
      · refine List.pairwise_cons.mpr ⟨?_, hpw⟩
        intro b hbs
        rw [hagc]
        intro hcontra
        exact hnd.1 (hcontra ▸ hcodes b hbs)

theorem subject_selections_distinct {sa : SubjectMap}
    (hwf : SubjectMapWF sa) (hown : SubjectMapOwn sa) :
    ∀ sel ∈ subject_selections sa,
      (∀ b ∈ sel, b.subject_code ∈ sa.map Prod.fst) ∧
      sel.Pairwise (fun a b =>
        ¬(a.subject_code = b.subject_code ∧
          a.activity_group_code = b.activity_group_code)) := by
  induction sa with
  | nil =>
      intro sel hsel
      simp only [subject_selections, List.mem_singleton] at hsel
      subst hsel
      simp
  | cons p rest ih =>
      intro sel hsel
      obtain ⟨sk, groups⟩ := p
      obtain ⟨hnd, hmem⟩ := hwf
      simp only [List.map_cons, List.nodup_cons] at hnd
      have htailWF : SubjectMapWF rest :=
        ⟨hnd.2, fun p hp => hmem p (List.mem_cons_of_mem _ hp)⟩
      have htailOwn : SubjectMapOwn rest :=
        fun p hp => hown p (List.mem_cons_of_mem _ hp)
      simp only [subject_selections, List.mem_flatMap, List.mem_map] at hsel
      obtain ⟨s, hs, t, ht, rfl⟩ := hsel
      obtain ⟨hcodes_t, hpw_t⟩ := ih htailWF htailOwn t ht
      have hgwf : GroupMapWF groups := (hmem (sk, groups) (List.mem_cons_self _ _)).2
      obtain ⟨_, hpw_s⟩ := group_selections_codes hgwf s hs
      have hsubj_s : ∀ b ∈ s, b.subject_code = sk := by
        intro b hbs
        obtain ⟨q, hq, hbq⟩ := mem_of_mem_group_selections hs hbs
        exact hown (sk, groups) (List.mem_cons_self _ _) q hq b hbq
      constructor
      · intro b hb
        rcases List.mem_append.mp hb with hbs | hbt
        · simp [hsubj_s b hbs]
        · exact List.mem_cons_of_mem _ (hcodes_t b hbt)
      · refine List.pairwise_append.mpr ⟨?_, hpw_t, ?_⟩
        · exact hpw_s.imp (fun h => fun hc => h hc.2)
        · intro a has b hbt hc
          have h1 : a.subject_code = sk := hsubj_s a has
          have h2 : b.subject_code ∈ rest.map Prod.fst := hcodes_t b hbt
          rw [hc.1] at h1
          rw [h1] at h2
          exact hnd.1 h2

theorem score_activity_combination_nil (opt : Optimization) :
    score_activity_combination opt [] = ⊥ := by
  simp [score_activity_combination]

theorem bot_lt_score_activity_combination (opt : Optimization)
    {activities : List Activity} (h : activities ≠ []) :
    ⊥ < score_activity_combination opt activities := by
  cases activities with
  | nil => exact absurd rfl h
  | cons a t =>
      simp only [score_activity_combination, List.isEmpty_cons, if_false,
        Bool.false_eq_true]
      exact WithBot.bot_lt_coe _

theorem subject_selections_ne_nil {sa : SubjectMap} (hwf : SubjectMapWF sa) :
    subject_selections sa ≠ [] := by
  have hlen : 0 < (subject_selections sa).length := by
    rw [length_subject_selections]
    refine List.prod_pos ?_
    intro n hn
    simp only [List.mem_map] at hn
    obtain ⟨p, hp, rfl⟩ := hn
    refine List.prod_pos ?_
    intro n hn
    simp only [List.mem_map] at hn
    obtain ⟨q, hq, rfl⟩ := hn
    exact List.length_pos.mpr ((hwf.2 p hp).2.2 q hq).1
  exact List.length_pos.mp hlen

theorem mem_subject_selections_ne_nil {sa : SubjectMap} (hwf : SubjectMapWF sa)
    (hne : sa ≠ []) {sel : List Activity} (hsel : sel ∈ subject_selections sa) :
    sel ≠ [] := by
  have hlen := length_of_mem_subject_selections hsel
  cases sa with
  | nil => exact absurd rfl hne
  | cons p rest =>
      have hp2 : 0 < p.2.length :=
        List.length_pos.mpr (hwf.2 p (List.mem_cons_self _ _)).1
      refine List.length_pos.mp ?_
      rw [hlen]
      simp only [List.map_cons, List.sum_cons]
      omega

/-- C1: For every catalog and preferences, optimize_timetable returns a
complete schedule whose combined score is maximal over all complete
combinations (one activity per group of every subject), and among
equal-scoring combinations the one first encountered in enumeration
order (subjects in catalog order, groups in catalog order, activities
in group-list order) is the one returned, because the best is only
replaced on a strictly greater score.  The first conjunct states
maximality; the second states that the returned schedule is the first
element of the enumeration attaining the returned score, hence a
member of the enumeration, i.e. a complete schedule. -/
theorem claim_C1 (opt : Optimization) (subjects : List Subject) :
    (∀ c ∈ subject_selections (get_subject_activities subjects),
        score_activity_combination opt c ≤
          score_activity_combination opt (optimize_timetable opt subjects)) ∧
    (subject_selections (get_subject_activities subjects)).find?
        (fun c => decide (score_activity_combination opt c =
          score_activity_combination opt (optimize_timetable opt subjects))) =
      some (optimize_timetable opt subjects) := by
  have hwf := subjectMapWF_get_subject_activities subjects
  rw [optimize_timetable_eq]
  cases hsaE : get_subject_activities subjects with
  | nil =>
      constructor
      · intro c hc
        simp only [subject_selections, List.mem_singleton] at hc
        subst hc
        exact le_refl _
      · have hstep : opt_step opt ⟨[], ⊥⟩ [] = ⟨[], ⊥⟩ := by
          simp [opt_step, score_activity_combination_nil]
        simp [subject_selections, hstep, List.find?]
  | cons p rest =>
      rw [hsaE] at hwf
      have hne : subject_selections (p :: rest) ≠ [] := subject_selections_ne_nil hwf
      obtain ⟨c₀, hc₀⟩ : ∃ c, c ∈ subject_selections (p :: rest) :=
        List.exists_mem_of_ne_nil _ hne
      have hex : ∃ c ∈ subject_selections (p :: rest),
          (OptState.mk [] ⊥).best_score < score_activity_combination opt c := by
        refine ⟨c₀, hc₀, ?_⟩
        exact bot_lt_score_activity_combination opt
          (mem_subject_selections_ne_nil hwf (by simp) hc₀)
      obtain ⟨hsc, hfind⟩ :=
        foldl_opt_step_argmax opt (subject_selections (p :: rest)) ⟨[], ⊥⟩ hex
      constructor
      · intro c hc
        rw [← hsc]
        exact le_foldl_opt_step opt _ _ c hc
      · rw [← hsc]
        exact hfind

/-- C2: For every catalog, the number of complete schedules that the
search scores equals the product, over all subjects and all activity
groups of each subject, of the candidate count of that group.  The
first conjunct counts the enumerated complete schedules; the second
identifies the recursion of optimize_timetable with one scoring fold
over exactly that enumeration, so the base case runs once per
enumerated schedule. -/
theorem claim_C2 (opt : Optimization) (subjects : List Subject) :
    (subject_selections (get_subject_activities subjects)).length =
      ((get_subject_activities subjects).map
        (fun p => (p.2.map (fun q => q.2.length)).prod)).prod ∧
    try_subject_combinations opt (get_subject_activities subjects) [] ⟨[], ⊥⟩ =
      (subject_selections (get_subject_activities subjects)).foldl (opt_step opt)
        ⟨[], ⊥⟩ := by
  refine ⟨length_subject_selections _, ?_⟩
  rw [try_subject_combinations_eq]
  simp

/-- C8: For a catalog with no subjects the search scores only the empty
schedule, whose score is negative infinity, so the initial empty best
is never replaced: optimize_timetable returns the empty schedule, its
score is bottom, and format_output renders it as the empty list of
lines. -/
theorem claim_C8 (opt : Optimization) :
    subject_selections (get_subject_activities []) = [[]] ∧
    optimize_timetable opt [] = [] ∧
    score_activity_combination opt (optimize_timetable opt []) = ⊥ ∧
    format_output (optimize_timetable opt []) = [] := by
  have h0 : get_subject_activities [] = [] := rfl
  have h : optimize_timetable opt [] = [] := by
    rw [optimize_timetable_eq, h0]
    simp [subject_selections, opt_step, score_activity_combination]
  refine ⟨by rw [h0]; rfl, h, ?_, ?_⟩
  · rw [h]
    exact score_activity_combination_nil opt
  · rw [h]
    simp [format_output]

theorem optimize_timetable_mem (opt : Optimization) (subjects : List Subject) :
    optimize_timetable opt subjects ∈
      subject_selections (get_subject_activities subjects) := by
  have hwf := subjectMapWF_get_subject_activities subjects
  rw [optimize_timetable_eq]
  cases hsaE : get_subject_activities subjects with
  | nil =>
      have hstep : opt_step opt ⟨[], ⊥⟩ [] = ⟨[], ⊥⟩ := by
        simp [opt_step, score_activity_combination_nil]
      simp [subject_selections, hstep]
  | cons p rest =>
      rw [hsaE] at hwf
      have hne : subject_selections (p :: rest) ≠ [] := subject_selections_ne_nil hwf
      obtain ⟨c₀, hc₀⟩ : ∃ c, c ∈ subject_selections (p :: rest) :=
        List.exists_mem_of_ne_nil _ hne
      have hex : ∃ c ∈ subject_selections (p :: rest),
          (OptState.mk [] ⊥).best_score < score_activity_combination opt c :=
        ⟨c₀, hc₀, bot_lt_score_activity_combination opt
          (mem_subject_selections_ne_nil hwf (by simp) hc₀)⟩
      obtain ⟨_, hfind⟩ :=
        foldl_opt_step_argmax opt (subject_selections (p :: rest)) ⟨[], ⊥⟩ hex
      exact List.mem_of_find?_eq_some hfind

/-- C7: Every complete schedule enumerated by the search, and in
particular the best schedule returned by optimize_timetable, contains
exactly one activity per (subject code, group code) pair of the
catalog: its activity count is the total number of groups across all
subjects, and no two of its activities share the same
(subject code, activity group code) identity.  The hypothesis states
that each activity of the catalog carries the subject code of the
subject it is listed under, which the data model guarantees. -/
theorem claim_C7 (opt : Optimization) (subjects : List Subject)
    (hcat : ∀ s ∈ subjects, ∀ a ∈ s.activities, a.subject_code = s.subject_code) :
    (∀ sel ∈ subject_selections (get_subject_activities subjects),
        sel.length =
          ((get_subject_activities subjects).map (fun p => p.2.length)).sum ∧
        sel.Pairwise (fun a b =>
          ¬(a.subject_code = b.subject_code ∧
            a.activity_group_code = b.activity_group_code))) ∧
    (optimize_timetable opt subjects).length =
      ((get_subject_activities subjects).map (fun p => p.2.length)).sum ∧
    (optimize_timetable opt subjects).Pairwise (fun a b =>
      ¬(a.subject_code = b.subject_code ∧
        a.activity_group_code = b.activity_group_code)) := by
  have hwf := subjectMapWF_get_subject_activities subjects
  have hown := subjectMapOwn_get_subject_activities subjects hcat
  have hmain : ∀ sel ∈ subject_selections (get_subject_activities subjects),
      sel.length =
        ((get_subject_activities subjects).map (fun p => p.2.length)).sum ∧
      sel.Pairwise (fun a b =>
        ¬(a.subject_code = b.subject_code ∧
          a.activity_group_code = b.activity_group_code)) := by
    intro sel hsel
    exact ⟨length_of_mem_subject_selections hsel,
      (subject_selections_distinct hwf hown sel hsel).2⟩
  refine ⟨hmain, ?_, ?_⟩
  · exact (hmain _ (optimize_timetable_mem opt subjects)).1
  · exact (hmain _ (optimize_timetable_mem opt subjects)).2

theorem total_deviation_nonneg (opt : Optimization) (a : Activity) :
    0 ≤ total_deviation opt a := by
  show (0 : Int) ≤
    max 0 (opt.timeRestrictions.start * 60 - time_to_minutes a.start_time) +
      max 0 (time_to_minutes a.start_time - opt.timeRestrictions.«end» * 60) +
      (max 0 (opt.timeRestrictions.start * 60 -
          (time_to_minutes a.start_time + str_to_int a.duration)) +
        max 0 (time_to_minutes a.start_time + str_to_int a.duration -
          opt.timeRestrictions.«end» * 60))
  omega

theorem clash_count_le (l : List Activity) :
    (clash_count l : ℚ) ≤ ((l.length : ℚ) * ((l.length : ℚ) - 1)) / 2 := by
  induction l with
  | nil => simp [clash_count]
  | cons a t ih =>
      have hc : ((t.countP (fun b => check_clash a b) : ℚ)) ≤ (t.length : ℚ) := by
        exact_mod_cast List.countP_le_length _
      simp only [clash_count, List.length_cons]
      push_cast
      nlinarith [ih, hc]

theorem clash_score_nonneg (l : List Activity) : 0 ≤ clash_score l := by
  unfold clash_score
  by_cases hT : (0 : ℚ) < ((l.length : ℚ) * ((l.length : ℚ) - 1)) / 2
  · rw [if_pos hT]
    have h := clash_count_le l
    have : (clash_count l : ℚ) / (((l.length : ℚ) * ((l.length : ℚ) - 1)) / 2) ≤ 1 :=
      (div_le_one hT).mpr h
    linarith
  · rw [if_neg hT]
    norm_num

theorem clash_score_le_one (l : List Activity) : clash_score l ≤ 1 := by
  unfold clash_score
  by_cases hT : (0 : ℚ) < ((l.length : ℚ) * ((l.length : ℚ) - 1)) / 2
  · rw [if_pos hT]
    have h0 : (0 : ℚ) ≤ (clash_count l : ℚ) := by positivity
    have : (0 : ℚ) ≤ (clash_count l : ℚ) / (((l.length : ℚ) * ((l.length : ℚ) - 1)) / 2) :=
      div_nonneg h0 hT.le
    linarith
  · rw [if_neg hT]

/-- C3 (amended): for every activity and configuration, the
day-avoidance score is 0 or 1 and the clash score lies in the closed
interval from 0 to 1, but the time-window score is only bounded above
by 1: it equals one minus the total deviation over 1440 and is
nonnegative exactly when the total deviation is at most 1440 minutes,
so it is negative for activities deviating more than one day from the
window. -/
theorem claim_C3_amended (opt : Optimization) (a : Activity)
    (activities : List Activity) :
    (score_avoid_days opt a = 0 ∨ score_avoid_days opt a = 1) ∧
    (0 ≤ clash_score activities ∧ clash_score activities ≤ 1) ∧
    score_time_restrictions opt a ≤ 1 ∧
    (0 ≤ score_time_restrictions opt a ↔ total_deviation opt a ≤ 24 * 60) := by
  refine ⟨?_, ⟨clash_score_nonneg activities, clash_score_le_one activities⟩, ?_, ?_⟩
  · unfold score_avoid_days
    by_cases hm : lower3 a.day_of_week ∈ opt.avoidDays.map lower3
    · exact Or.inl (by simp [hm])
    · exact Or.inr (by simp [hm])
  · unfold score_time_restrictions
    have h := total_deviation_nonneg opt a
    have h0 : (0 : ℚ) ≤ (total_deviation opt a : ℚ) := by exact_mod_cast h
    have : (0 : ℚ) ≤ (total_deviation opt a : ℚ) / (24 * 60) := by positivity
    linarith
  · unfold score_time_restrictions
    constructor
    · intro h
      have hq : (total_deviation opt a : ℚ) / (24 * 60) ≤ 1 := by linarith
      have hq2 : (total_deviation opt a : ℚ) ≤ 24 * 60 := by
        rw [div_le_one (by norm_num : (0 : ℚ) < 24 * 60)] at hq
        exact hq
      exact_mod_cast hq2
    · intro h
      have hq : (total_deviation opt a : ℚ) ≤ 24 * 60 := by exact_mod_cast h
      have : (total_deviation opt a : ℚ) / (24 * 60) ≤ 1 := by
        rw [div_le_one (by norm_num : (0 : ℚ) < 24 * 60)]
        exact hq
      linarith

/-- C3 (counterexample): the three scoring functions do not all map
into the interval from 0 to 1.  With the configured window from hour
20 to hour 24 and an activity on Monday starting at midnight for 60
minutes, the time-window score is negative: the total deviation is
2340 minutes, so the score is 1 minus 2340 over 1440, which is
strictly below 0. -/
theorem claim_C3_counterexample :
    score_time_restrictions
      { timeRestrictions := { start := 20, «end» := 24 }, avoidDays := [] }
      { subject_code := "SUBJ", activity_group_code := "Lecture",
        activity_code := "01", day_of_week := "Mon", start_time := "00:00",
        duration := "60" } < 0 := by
  have h : total_deviation
      { timeRestrictions := { start := 20, «end» := 24 }, avoidDays := [] }
      { subject_code := "SUBJ", activity_group_code := "Lecture",
        activity_code := "01", day_of_week := "Mon", start_time := "00:00",
        duration := "60" } = 2340 := by decide
  unfold score_time_restrictions
  rw [h]
  norm_num

theorem clash_count_eq_pairs (l : List Activity) :
    clash_count l =
      (l.sublistsLen 2).countP
        (fun s => match s with | [x, y] => check_clash x y | _ => false) := by
  induction l with
  | nil => simp [clash_count]
  | cons a t ih =>
      rw [clash_count, List.sublistsLen_succ_cons, List.countP_append,
        List.sublistsLen_one, List.map_map, List.countP_map]
      have hrev :
          List.countP
            ((fun s => match s with | [x, y] => check_clash x y | _ => false) ∘
              (List.cons a) ∘ (fun x => [x])) t.reverse =
          List.countP (fun b => check_clash a b) t := by
        rw [List.reverse_perm t |>.countP_eq]
        rfl
      rw [hrev, show (1 + 1 : Nat) = 2 from rfl, ← ih]
      omega

theorem clash_score_eq_if (l : List Activity) :
    clash_score l =
      if l.length < 2 then (1 : ℚ)
      else 1 - (clash_count l : ℚ) /
        (((l.length : ℚ) * ((l.length : ℚ) - 1)) / 2) := by
  unfold clash_score
  match l with
  | [] => norm_num
  | [a] => norm_num
  | a :: b :: t =>
      have hlen : (2 : Nat) ≤ (a :: b :: t).length := by simp
      have hT : (0 : ℚ) <
          (((a :: b :: t).length : ℚ) * (((a :: b :: t).length : ℚ) - 1)) / 2 := by
        have h2 : (2 : ℚ) ≤ ((a :: b :: t).length : ℚ) := by exact_mod_cast hlen
        nlinarith
      rw [if_pos hT, if_neg (by omega)]

/-- C4: For every non-empty list of activities the combined score is
0.5 times the mean day-avoidance score plus 0.3 times the mean
time-window score plus 0.2 times the clash score, where the clash
score is one minus the ratio of clashing unordered pairs over all
unordered pairs and is 1.0 for fewer than two activities.  The second
conjunct identifies the counted clashing pairs with the clashing
2-element sublists, i.e. the clashing unordered pairs. -/
theorem claim_C4 (opt : Optimization) (activities : List Activity)
    (h : activities ≠ []) :
    score_activity_combination opt activities =
      ((((0.5 : ℚ) *
          ((activities.map (score_avoid_days opt)).sum / (activities.length : ℚ)) +
        0.3 *
          ((activities.map (score_time_restrictions opt)).sum /
            (activities.length : ℚ)) +
        0.2 *
          (if activities.length < 2 then (1 : ℚ)
           else 1 - (clash_count activities : ℚ) /
             (((activities.length : ℚ) * ((activities.length : ℚ) - 1)) / 2))) :
        ℚ) : WithBot ℚ) ∧
    clash_count activities =
      (activities.sublistsLen 2).countP
        (fun s => match s with | [x, y] => check_clash x y | _ => false) := by
  refine ⟨?_, clash_count_eq_pairs activities⟩
  rw [← clash_score_eq_if]
  cases activities with
  | nil => exact absurd rfl h
  | cons a t => simp [score_activity_combination]

/-- Witness for C4 at a concrete one-activity schedule. -/
theorem claim_C4_witness :
    (([⟨"S", "L", "01", "Mon", "09:00", "60"⟩] : List Activity) ≠ []) ∧
    (score_activity_combination ⟨⟨6, 18⟩, []⟩
        [⟨"S", "L", "01", "Mon", "09:00", "60"⟩] =
      ((((0.5 : ℚ) *
          (([⟨"S", "L", "01", "Mon", "09:00", "60"⟩].map
            (score_avoid_days ⟨⟨6, 18⟩, []⟩)).sum /
            (([⟨"S", "L", "01", "Mon", "09:00", "60"⟩] : List Activity).length : ℚ)) +
        0.3 *
          (([⟨"S", "L", "01", "Mon", "09:00", "60"⟩].map
            (score_time_restrictions ⟨⟨6, 18⟩, []⟩)).sum /
            (([⟨"S", "L", "01", "Mon", "09:00", "60"⟩] : List Activity).length : ℚ)) +
        0.2 *
          (if ([⟨"S", "L", "01", "Mon", "09:00", "60"⟩] : List Activity).length < 2
           then (1 : ℚ)
           else 1 -
             (clash_count [⟨"S", "L", "01", "Mon", "09:00", "60"⟩] : ℚ) /
               (((([⟨"S", "L", "01", "Mon", "09:00", "60"⟩] : List Activity).length : ℚ) *
                 ((([⟨"S", "L", "01", "Mon", "09:00", "60"⟩] : List Activity).length : ℚ) -
                   1)) / 2))) : ℚ) : WithBot ℚ) ∧
      clash_count [⟨"S", "L", "01", "Mon", "09:00", "60"⟩] =
        (([⟨"S", "L", "01", "Mon", "09:00", "60"⟩] : List Activity).sublistsLen 2).countP
          (fun s => match s with | [x, y] => check_clash x y | _ => false)) :=
  ⟨by decide, claim_C4 ⟨⟨6, 18⟩, []⟩ [⟨"S", "L", "01", "Mon", "09:00", "60"⟩] (by decide)⟩

/-- C5: For activities with positive parsed durations (as the data
model requires), check_clash is true exactly when the two activities
share a weekday and their half-open minute intervals from start to
start plus duration overlap, i.e. the larger start lies strictly
before the smaller end; in particular two activities on different
weekdays never clash. -/
theorem claim_C5 (a1 a2 : Activity)
    (h1 : 0 < str_to_int a1.duration) (h2 : 0 < str_to_int a2.duration) :
    (check_clash a1 a2 = true ↔
      (a1.day_of_week = a2.day_of_week ∧
        max (time_to_minutes a1.start_time) (time_to_minutes a2.start_time) <
          min (time_to_minutes a1.start_time + str_to_int a1.duration)
            (time_to_minutes a2.start_time + str_to_int a2.duration))) ∧
    (a1.day_of_week ≠ a2.day_of_week → check_clash a1 a2 = false) := by
  by_cases hd : a1.day_of_week = a2.day_of_week
  · constructor
    · simp only [check_clash, hd, ne_eq, not_true_eq_false, if_false,
        decide_eq_true_eq, not_or, not_le]
      constructor
      · rintro ⟨hA, hB⟩
        refine ⟨trivial, ?_⟩
        omega
      · rintro ⟨_, hm⟩
        constructor <;> omega
    · intro hne
      exact absurd hd hne
  · constructor
    · simp [check_clash, hd]
    · intro _
      simp [check_clash, hd]

/-- Witness for C5: the two overlapping Wednesday activities of the
specification example clash. -/
theorem claim_C5_witness :
    (0 < str_to_int (Activity.duration ⟨"S", "L", "01", "Wed", "09:00", "60"⟩)) ∧
    (0 < str_to_int (Activity.duration ⟨"S", "L", "02", "Wed", "09:30", "60"⟩)) ∧
    ((check_clash ⟨"S", "L", "01", "Wed", "09:00", "60"⟩
        ⟨"S", "L", "02", "Wed", "09:30", "60"⟩ = true ↔
      ((Activity.day_of_week ⟨"S", "L", "01", "Wed", "09:00", "60"⟩ =
          Activity.day_of_week ⟨"S", "L", "02", "Wed", "09:30", "60"⟩) ∧
        max (time_to_minutes (Activity.start_time ⟨"S", "L", "01", "Wed", "09:00", "60"⟩))
            (time_to_minutes (Activity.start_time ⟨"S", "L", "02", "Wed", "09:30", "60"⟩)) <
          min (time_to_minutes (Activity.start_time ⟨"S", "L", "01", "Wed", "09:00", "60"⟩) +
              str_to_int (Activity.duration ⟨"S", "L", "01", "Wed", "09:00", "60"⟩))
            (time_to_minutes (Activity.start_time ⟨"S", "L", "02", "Wed", "09:30", "60"⟩) +
              str_to_int (Activity.duration ⟨"S", "L", "02", "Wed", "09:30", "60"⟩)))) ∧
    (Activity.day_of_week ⟨"S", "L", "01", "Wed", "09:00", "60"⟩ ≠
        Activity.day_of_week ⟨"S", "L", "02", "Wed", "09:30", "60"⟩ →
      check_clash ⟨"S", "L", "01", "Wed", "09:00", "60"⟩
        ⟨"S", "L", "02", "Wed", "09:30", "60"⟩ = false)) :=
  ⟨by decide, by decide,
    claim_C5 ⟨"S", "L", "01", "Wed", "09:00", "60"⟩
      ⟨"S", "L", "02", "Wed", "09:30", "60"⟩ (by decide) (by decide)⟩

/-- C6: For every activity the day-avoidance score is either 0.0 or
1.0, and it is 1.0 exactly when the weekday of the activity lies
outside the configured avoid-day set, membership being decided by the
comparison the scorer performs: equality of lowercased 3-character
prefixes. -/
theorem claim_C6 (opt : Optimization) (a : Activity) :
    (score_avoid_days opt a = 0 ∨ score_avoid_days opt a = 1) ∧
    (score_avoid_days opt a = 1 ↔
      ¬∃ d ∈ opt.avoidDays, lower3 d = lower3 a.day_of_week) := by
  unfold score_avoid_days
  by_cases hm : lower3 a.day_of_week ∈ opt.avoidDays.map lower3
  · simp only [hm, if_true]
    refine ⟨Or.inl trivial, ?_⟩
    simp only [List.mem_map] at hm
    constructor
    · intro h01
      exact absurd h01 (by norm_num)
    · intro hno
      exact absurd hm hno
  · simp only [hm, if_false]
    refine ⟨Or.inr trivial, ?_⟩
    simp only [List.mem_map] at hm
    constructor
    · intro _
      exact hm
    · intro _
      trivial

/-- C10: Day-avoidance matching is case-insensitive 3-character-prefix
matching: the score is 0.0 exactly when the lowercased 3-character
prefix of the weekday of the activity equals the lowercased
3-character prefix of some avoid-set entry.  The closed conjuncts
record that the entries Tuesday, tue and TUE all normalize to the same
key as the weekday Tue, while an entry with a different lowercased
3-prefix never matches it. -/
theorem claim_C10 (opt : Optimization) (a : Activity) :
    (score_avoid_days opt a = 0 ↔
      ∃ d ∈ opt.avoidDays, lower3 d = lower3 a.day_of_week) ∧
    lower3 "Tuesday" = lower3 "Tue" ∧
    lower3 "tue" = lower3 "Tue" ∧
    lower3 "TUE" = lower3 "Tue" ∧
    lower3 "Wednesday" ≠ lower3 "Tue" := by
  refine ⟨?_, by decide, by decide, by decide, by decide⟩
  unfold score_avoid_days
  by_cases hm : lower3 a.day_of_week ∈ opt.avoidDays.map lower3
  · simp only [hm, if_true]
    simp only [List.mem_map] at hm
    exact ⟨fun _ => hm, fun _ => trivial⟩
  · simp only [hm, if_false]
    simp only [List.mem_map] at hm
    constructor
    · intro h10
      exact absurd h10 (by norm_num)
    · intro hex
      exact absurd hex hm

/-- C9: format_output returns the rendered per-activity lines sorted
lexicographically, as a permutation of the rendered lines of its
input; consequently any two schedules that are permutations of one
another format to exactly the same list of lines. -/
theorem claim_C9 (l₁ l₂ : List Activity) (hp : l₁.Perm l₂) :
    (format_output l₁).Sorted (fun s₁ s₂ : String => s₁ ≤ s₂) ∧
    (format_output l₁).Perm (l₁.map format_activity) ∧
    format_output l₁ = format_output l₂ := by
  have hsorted : ∀ l : List Activity,
      (format_output l).Sorted (fun s₁ s₂ : String => s₁ ≤ s₂) := by
    intro l
    have := @List.sorted_mergeSort' String _ _ _ (l.map format_activity)
    simpa [format_output] using this
  have hperm : ∀ l : List Activity,
      (format_output l).Perm (l.map format_activity) := by
    intro l
    exact List.mergeSort_perm (l.map format_activity) _
  refine ⟨hsorted l₁, hperm l₁, ?_⟩
  refine List.eq_of_perm_of_sorted ?_ (hsorted l₁) (hsorted l₂)
  exact ((hperm l₁).trans (hp.map format_activity)).trans (hperm l₂).symm

/-- Witness for C9 at a concrete two-element permutation. -/
theorem claim_C9_witness :
    (([⟨"S", "L", "01", "Wed", "09:00", "60"⟩,
       ⟨"S", "L", "02", "Thu", "10:00", "30"⟩] : List Activity).Perm
      [⟨"S", "L", "02", "Thu", "10:00", "30"⟩,
       ⟨"S", "L", "01", "Wed", "09:00", "60"⟩]) ∧
    ((format_output
        [⟨"S", "L", "01", "Wed", "09:00", "60"⟩,
         ⟨"S", "L", "02", "Thu", "10:00", "30"⟩]).Sorted
        (fun s₁ s₂ : String => s₁ ≤ s₂) ∧
      (format_output
        [⟨"S", "L", "01", "Wed", "09:00", "60"⟩,
         ⟨"S", "L", "02", "Thu", "10:00", "30"⟩]).Perm
        (([⟨"S", "L", "01", "Wed", "09:00", "60"⟩,
           ⟨"S", "L", "02", "Thu", "10:00", "30"⟩] : List Activity).map
          format_activity) ∧
      format_output
        [⟨"S", "L", "01", "Wed", "09:00", "60"⟩,
         ⟨"S", "L", "02", "Thu", "10:00", "30"⟩] =
      format_output
        [⟨"S", "L", "02", "Thu", "10:00", "30"⟩,
         ⟨"S", "L", "01", "Wed", "09:00", "60"⟩]) :=
  ⟨by decide,
    claim_C9
      [⟨"S", "L", "01", "Wed", "09:00", "60"⟩,
       ⟨"S", "L", "02", "Thu", "10:00", "30"⟩]
      [⟨"S", "L", "02", "Thu", "10:00", "30"⟩,
       ⟨"S", "L", "01", "Wed", "09:00", "60"⟩] (by decide)⟩

/-- A small concrete catalog used to witness hypotheses: two subjects,
one with two single-candidate groups and one with one group. -/
def sample_subjects : List Subject :=
  [⟨"A", [⟨"A", "Lec", "01", "Mon", "09:00", "60"⟩,
          ⟨"A", "Tut", "01", "Tue", "10:00", "60"⟩]⟩,
   ⟨"B", [⟨"B", "Lec", "01", "Wed", "11:00", "60"⟩]⟩]

/-- A small concrete optimization configuration. -/
def sample_opt : Optimization := ⟨⟨6, 18⟩, ["tue"]⟩

/-- Witness for C7 at the concrete sample catalog. -/
theorem claim_C7_witness :
    (∀ s ∈ sample_subjects, ∀ a ∈ s.activities, a.subject_code = s.subject_code) ∧
    ((∀ sel ∈ subject_selections (get_subject_activities sample_subjects),
        sel.length =
          ((get_subject_activities sample_subjects).map (fun p => p.2.length)).sum ∧
        sel.Pairwise (fun a b =>
          ¬(a.subject_code = b.subject_code ∧
            a.activity_group_code = b.activity_group_code))) ∧
      (optimize_timetable sample_opt sample_subjects).length =
        ((get_subject_activities sample_subjects).map (fun p => p.2.length)).sum ∧
      (optimize_timetable sample_opt sample_subjects).Pairwise (fun a b =>
        ¬(a.subject_code = b.subject_code ∧
          a.activity_group_code = b.activity_group_code))) :=
  ⟨by decide, claim_C7 sample_opt sample_subjects (by decide)⟩
